import Mathlib

/-!
Verification development for the Lernd demo notebooks (differentiable
Inductive Logic Programming).  The notebooks set up ILP problems
(predecessor, even), run the Lernd core, and record its outputs.  The
Lernd core itself (clause generator, ground-atom universe, forward
chainer, loss, definition extractor) is shallowly embedded here; parts
of the core that are only visible through the notebooks' recorded
outputs are modelled from the specification and checked against those
recorded outputs.
-/

namespace Lernd

/-- A predicate is identified by its name and arity. -/
structure Predicate where
  name : String
  arity : Nat
deriving DecidableEq, Repr

/-- A term is a variable or a constant (constants are opaque strings). -/
inductive Term where
  | var : String → Term
  | const : String → Term
deriving DecidableEq, Repr

/-- An atom: a predicate applied to an ordered tuple of terms. -/
structure Atom where
  pred : Predicate
  args : List Term
deriving DecidableEq, Repr

/-- A ground atom: a predicate applied to constants only. -/
structure GroundAtom where
  pred : Predicate
  args : List String
deriving DecidableEq, Repr

/-- A definite clause: a head atom and an ordered body of atoms. -/
structure Clause where
  head : Atom
  body : List Atom
deriving DecidableEq, Repr

/-! ## Ground atom universe -/

/-- All ordered `n`-tuples over the constant list `C`, first coordinate
outermost, matching the enumeration order recorded in the notebooks
(`predecessor(0,0), predecessor(0,1), ...`). -/
def tuples (C : List String) : Nat → List (List String)
  | 0 => [[]]
  | n + 1 => C.flatMap (fun c => (tuples C n).map (fun t => c :: t))

/-- All ground atoms of one predicate over the constant list. -/
def groundAtomsFor (p : Predicate) (C : List String) : List GroundAtom :=
  (tuples C p.arity).map (fun t => ⟨p, t⟩)

/-- The ground atom universe: all ground atoms of all predicates in scope. -/
def groundAtomUniverse (preds : List Predicate) (C : List String) : List GroundAtom :=
  preds.flatMap (fun p => groundAtomsFor p C)

theorem tuples_length (C : List String) (n : Nat) :
    (tuples C n).length = C.length ^ n := by
  induction n with
  | zero => simp [tuples]
  | succ n ih =>
    simp only [tuples, List.length_flatMap, Function.comp_def, List.length_map, ih,
      List.map_const', List.sum_replicate, smul_eq_mul, pow_succ, Nat.mul_comm]

theorem groundAtomsFor_length (p : Predicate) (C : List String) :
    (groundAtomsFor p C).length = C.length ^ p.arity := by
  simp [groundAtomsFor, tuples_length]

/-! ## The predecessor problem (recorded in the intro notebook) -/

def predecessor_pred : Predicate := ⟨"predecessor", 2⟩
def succ_pred : Predicate := ⟨"succ", 2⟩
def zero_pred : Predicate := ⟨"zero", 1⟩

/-- Constants `0..9` of the predecessor problem. -/
def constantsPredecessor : List String := (List.range 10).map (fun i => toString i)

/-- Background axioms of the predecessor problem: `zero(0)` and
`succ(i,i+1)` for `i = 0..8`. -/
def backgroundPredecessor : List GroundAtom :=
  ⟨zero_pred, ["0"]⟩ ::
    (List.range 9).map (fun i => ⟨succ_pred, [toString i, toString (i + 1)]⟩)

/-- Positive examples `predecessor(i+1,i)` for `i = 0..8`. -/
def positivePredecessor : List GroundAtom :=
  (List.range 9).map (fun i => ⟨predecessor_pred, [toString (i + 1), toString i]⟩)

/-- Negative examples: all other target ground atoms, as produced from the
ground atom generator in the notebook. -/
def negativePredecessor : List GroundAtom :=
  (groundAtomsFor predecessor_pred constantsPredecessor).filter
    (fun g => ¬ g ∈ positivePredecessor)

/-! ## Clause semantics -/

/-- Apply a ground substitution to a term. -/
def substTerm (σ : String → String) : Term → String
  | Term.var v => σ v
  | Term.const c => c

/-- Apply a ground substitution to an atom, producing a ground atom. -/
def substAtom (σ : String → String) (a : Atom) : GroundAtom :=
  ⟨a.pred, a.args.map (substTerm σ)⟩

/-- A clause body is satisfied by a fact set under a substitution when every
ground body atom is among the facts. -/
def bodySatisfied (facts : List GroundAtom) (σ : String → String) (body : List Atom) : Bool :=
  body.all (fun a => substAtom σ a ∈ facts)

/-- A clause derives a ground atom from facts when some ground substitution
maps its head to the atom and satisfies the whole body. -/
def clauseDerives (facts : List GroundAtom) (c : Clause) (g : GroundAtom) : Prop :=
  ∃ σ : String → String, substAtom σ c.head = g ∧ bodySatisfied facts σ c.body = true

/-- The clause extracted by the trained predecessor run, exactly as printed
by the notebook: `predecessor(A,B)<-succ(B,A), succ(B,A)`. -/
def learntClausePredecessor : Clause :=
  ⟨⟨predecessor_pred, [Term.var "A", Term.var "B"]⟩,
   [⟨succ_pred, [Term.var "B", Term.var "A"]⟩,
    ⟨succ_pred, [Term.var "B", Term.var "A"]⟩]⟩

/-- The single-body-atom clause `predecessor(A,B)<-succ(B,A)` named by the
specification. -/
def specClausePredecessor : Clause :=
  ⟨⟨predecessor_pred, [Term.var "A", Term.var "B"]⟩,
   [⟨succ_pred, [Term.var "B", Term.var "A"]⟩]⟩

/-- The base clause extracted by the trained even run, exactly as printed by
the notebook: `even(A)<-zero(A), zero(A)`. -/
def learntClauseEvenBase : Clause :=
  ⟨⟨⟨"even", 1⟩, [Term.var "A"]⟩,
   [⟨zero_pred, [Term.var "A"]⟩, ⟨zero_pred, [Term.var "A"]⟩]⟩

/-- A length-2 body has distinct atoms when its two atoms differ; bodies of
other lengths satisfy the condition vacuously. -/
def bodyAtomsDistinct (c : Clause) : Bool :=
  match c.body with
  | [a, b] => decide (a ≠ b)
  | _ => true

/-- The valuation report printed at the end of the predecessor run, exactly
as recorded in the notebook (every printed probability is `1.0`). -/
def reportedValuationsPredecessor : List (GroundAtom × ℚ) :=
  (⟨zero_pred, ["0"]⟩, 1) ::
    ((List.range 9).map (fun i => (⟨succ_pred, [toString i, toString (i + 1)]⟩, (1 : ℚ)))
      ++ (List.range 9).map (fun i => (⟨predecessor_pred, [toString (i + 1), toString i]⟩, (1 : ℚ))))

/-! ## Differentiable forward chainer -/

/-- Modelled from the spec: the clause-satisfaction index of a candidate
clause — for each head ground atom, the list of body-ground-atom index
tuples produced by the clause's groundings (possibly empty).  The Lernd
library that computes it is not part of this repository's sources. -/
structure ClauseIndex (G : Type) where
  groundings : G → List (List G)

/-- Fuzzy conjunction of a grounding's body entries: the minimum of the
valuation over the body indices (1 for an empty body). -/
def bodyMin {G : Type} (v : G → ℚ) (body : List G) : ℚ :=
  body.foldr (fun i acc => min (v i) acc) 1

/-- Modelled from the spec: per-clause evaluation `f_c` — the maximum over
the clause's groundings for a head atom of the fuzzy conjunction of the
grounding's body, and 0 for head atoms with no groundings. -/
def fc {G : Type} (c : ClauseIndex G) (v : G → ℚ) (h : G) : ℚ :=
  (c.groundings h).foldr (fun body acc => max (bodyMin v body) acc) 0

/-- A template slot: candidate clauses paired with their softmax
probabilities. -/
abbrev Slot (G : Type) : Type := List (ℚ × ClauseIndex G)

/-- A slot's clause probabilities are a (sub-)probability vector: softmax
output is nonnegative and sums to 1; a predicate with no clauses has the
empty slot, summing to 0. -/
abbrev probVector {G : Type} (s : Slot G) : Prop :=
  (∀ pc ∈ s, 0 ≤ pc.1) ∧ (s.map Prod.fst).sum ≤ 1

/-- Modelled from the spec: per-slot mixture — the probability-weighted sum
of the slot's per-clause evaluations. -/
def slotMix {G : Type} (s : Slot G) (v : G → ℚ) (h : G) : ℚ :=
  (s.map (fun pc => pc.1 * fc pc.2 v h)).sum

/-- Fuzzy disjunction `a + b - a*b`. -/
def fuzzyOr (a b : ℚ) : ℚ := a + b - a * b

/-- Modelled from the spec: the static data driving forward chaining — which
ground atoms are background facts, and for the predicate owning each ground
atom its first slot and optional second slot. -/
structure ChainSetup (G : Type) where
  background : G → Bool
  slot1 : G → Slot G
  slot2 : G → Option (Slot G)

/-- Modelled from the spec: per-predicate combination — one slot's mixture,
or the fuzzy-or of the two slots' mixtures. -/
def combined {G : Type} (S : ChainSetup G) (v : G → ℚ) (h : G) : ℚ :=
  match S.slot2 h with
  | none => slotMix (S.slot1 h) v h
  | some s => fuzzyOr (slotMix (S.slot1 h) v h) (slotMix s v h)

/-- Modelled from the spec: one forward-chaining step — fuzzy-or of the
previous valuation with the combined predicate updates, with background
entries re-asserted to stay at least their initial value. -/
def chainStep {G : Type} (S : ChainSetup G) (v0 v : G → ℚ) (h : G) : ℚ :=
  let u := fuzzyOr (v h) (combined S v h)
  if S.background h then max u (v0 h) else u

/-- Modelled from the spec: the forward chainer — `T` iterated steps from
the initial valuation `v_0`; zero steps return `v_0` itself. -/
def chain {G : Type} (S : ChainSetup G) (v0 : G → ℚ) : Nat → (G → ℚ)
  | 0 => v0
  | t + 1 => chainStep S v0 (chain S v0 t)

/-- A tiny concrete clause index used to instantiate the chainer theorems:
ground atom 1 is derivable from ground atom 0. -/
def exampleIdx : ClauseIndex (Fin 2) :=
  ⟨fun h => if h = 1 then [[0]] else []⟩

/-- A tiny concrete chain setup: atom 0 is background, atom 1 has one slot
with the single clause of `exampleIdx` at probability 1. -/
def exampleSetup : ChainSetup (Fin 2) where
  background := fun h => decide (h = 0)
  slot1 := fun h => if h = 1 then [((1 : ℚ), exampleIdx)] else []
  slot2 := fun _ => none

/-- The initial valuation of the tiny example: 1 on the background atom,
0 elsewhere. -/
def exampleV0 : Fin 2 → ℚ := fun h => if h = 0 then 1 else 0

/-! ## Definition extractor and valuation printing -/

/-- Index and value of the first maximum of a rational list, starting from
the running best `(bi, bv)` with the next element at position `i`. -/
def argmaxFrom (bi : Nat) (bv : ℚ) (i : Nat) : List ℚ → Nat × ℚ
  | [] => (bi, bv)
  | x :: xs => if bv < x then argmaxFrom i x (i + 1) xs else argmaxFrom bi bv (i + 1) xs

/-- First-occurrence argmax of a rational list: its index and value, or
`none` for the empty list. -/
def argmaxP : List ℚ → Option (Nat × ℚ)
  | [] => none
  | x :: xs => some (argmaxFrom 0 x 1 xs)

/-- The clause-probability threshold used by the extractor (default 0.1). -/
def clause_prob_threshold : ℚ := 1 / 10

/-- One emitted definition: the argmax clause, its softmax probability, and
whether that probability fell below the confidence threshold. -/
structure ExtractedClause where
  clause : Clause
  confidence : ℚ
  belowThreshold : Bool
deriving DecidableEq, Repr

/-- Modelled from the spec: per-slot definition extraction — take the argmax
clause of the slot's softmax probabilities and emit it in every case,
flagging it when its probability is below `clause_prob_threshold`; the Lernd
library function is not part of this repository's sources. -/
def extractSlot (clauses : List Clause) (p : List ℚ) : Option ExtractedClause :=
  match argmaxP p with
  | none => none
  | some jm =>
    match clauses[jm.1]? with
    | none => none
    | some c => some ⟨c, jm.2, decide (jm.2 < clause_prob_threshold)⟩

/-- Join strings with commas (used by the printable atom form). -/
def commaJoin : List String → String
  | [] => ""
  | [s] => s
  | s :: rest => s ++ "," ++ commaJoin rest

/-- Join strings with comma and space (used between printed body atoms). -/
def commaSpaceJoin : List String → String
  | [] => ""
  | [s] => s
  | s :: rest => s ++ ", " ++ commaSpaceJoin rest

/-- Printable form of a term. -/
def term2str : Term → String
  | Term.var v => v
  | Term.const c => c

/-- Printable form of an atom. -/
def atom2str (a : Atom) : String :=
  a.pred.name ++ "(" ++ commaJoin (a.args.map term2str) ++ ")"

/-- Printable form of a ground atom. -/
def groundAtom2str (g : GroundAtom) : String :=
  g.pred.name ++ "(" ++ commaJoin g.args ++ ")"

/-- Printable form of a clause, as recorded in the notebooks. -/
def clause2str (c : Clause) : String :=
  atom2str c.head ++ "<-" ++ commaSpaceJoin (c.body.map atom2str)

/-- Modelled from the spec: the full definition extractor over all slots;
for each slot it prints the emitted clause. -/
def extract_definitions (slots : List (List Clause × List ℚ)) : List String :=
  slots.flatMap (fun sl =>
    match extractSlot sl.1 sl.2 with
    | none => []
    | some e => [clause2str e.clause])

/-- A call to the extractor returns its printed output together with the
weight state it leaves behind; extraction only reads the weights. -/
def extractCall (slots : List (List Clause × List ℚ)) :
    List String × List (List Clause × List ℚ) :=
  (extract_definitions slots, slots)

/-- The display threshold of the valuation report: only ground atoms with
probability above 0.01 are printed. -/
def valuation_display_threshold : ℚ := 1 / 100

/-- The valuation entries retained by the printing interface: exactly those
with probability strictly above the display threshold. -/
def printedEntries (probs : List (GroundAtom × ℚ)) : List (GroundAtom × ℚ) :=
  probs.filter (fun gp => valuation_display_threshold < gp.2)

/-- Modelled from the spec: the valuation-printing interface — one line per
retained ground atom. -/
def print_valuations (probs : List (GroundAtom × ℚ)) : List String :=
  (printedEntries probs).map (fun gp => groundAtom2str gp.1 ++ " - " ++ toString gp.2)

/-! ## Loss and mini-batching -/

/-- Modelled from the spec: mini-batch size for fraction `r` of `N` labeled
examples, the ceiling of `r * N`. -/
def batchSize (r : ℚ) (N : Nat) : Nat := (Int.ceil (r * (N : ℚ))).toNat

/-- Modelled from the spec: the mini-batch drawn at one training step — the
first `batchSize r N` entries of the randomly shuffled example list. -/
def miniBatch {α : Type} (shuffled : List α) (r : ℚ) (N : Nat) : List α :=
  shuffled.take (batchSize r N)

/-- Mean of a per-example loss `ell` over labeled ground atoms, taken on a
valuation `v`. -/
def lossOn {G : Type} (ell : ℚ → ℚ → ℚ) (v : G → ℚ) (examples : List (G × ℚ)) : ℚ :=
  (examples.map (fun gy => ell (v gy.1) gy.2)).sum / (examples.length : ℚ)

/-- The values returned by one gradient-step evaluation: the mini-batch loss
used for the update, the final valuation, and the full-set loss reported for
monitoring. -/
structure GradResult (G : Type) where
  miniLoss : ℚ
  valuation : G → ℚ
  fullLoss : ℚ

/-- Modelled from the spec: one loss evaluation — forward-chain once to the
final valuation `v_T`, then compute the mini-batch loss and the full-set
loss as two scalar computations over that same valuation. -/
def gradStep {G : Type} (ell : ℚ → ℚ → ℚ) (S : ChainSetup G) (v0 : G → ℚ)
    (T : Nat) (examples shuffled : List (G × ℚ)) (r : ℚ) : GradResult G :=
  let vT := chain S v0 T
  ⟨lossOn ell vT (miniBatch shuffled r examples.length), vT, lossOn ell vT examples⟩

/-- A small concrete valuation report used to instantiate the printing
theorem: one certain atom and one atom below the display threshold. -/
def examplePrintProbs : List (GroundAtom × ℚ) :=
  [(⟨zero_pred, ["0"]⟩, 1), (⟨predecessor_pred, ["0", "1"]⟩, 1 / 200)]

/-- A small concrete labeled example list over the tiny universe. -/
def exampleExamples : List (Fin 2 × ℚ) := [(0, 1), (1, 0)]

/-- A simple per-example loss used to instantiate the mini-batch theorem. -/
def exampleLoss : ℚ → ℚ → ℚ := fun v y => (v - y) * (v - y)

/-! ## Helper lemmas -/

/-- Repeating the single atom of a body changes nothing semantically: the
clause with body `[a, a]` derives exactly what the clause with body `[a]`
derives. -/
theorem derives_duplicate_iff (hd a : Atom) (facts : List GroundAtom) (g : GroundAtom) :
    clauseDerives facts ⟨hd, [a, a]⟩ g ↔ clauseDerives facts ⟨hd, [a]⟩ g := by
  unfold clauseDerives bodySatisfied
  simp [List.all_cons, and_assoc]

/-- The fuzzy conjunction of body entries lies in `[0,1]` whenever the
valuation does. -/
theorem bodyMin_bounds {G : Type} (v : G → ℚ) (hv : ∀ i, 0 ≤ v i ∧ v i ≤ 1)
    (body : List G) : 0 ≤ bodyMin v body ∧ bodyMin v body ≤ 1 := by
  induction body with
  | nil => simp [bodyMin]
  | cons i rest ih =>
    simp only [bodyMin, List.foldr_cons] at *
    exact ⟨le_min (hv i).1 ih.1, le_trans (min_le_right _ _) ih.2⟩

/-- Per-clause evaluation lies in `[0,1]` whenever the valuation does. -/
theorem fc_bounds {G : Type} (c : ClauseIndex G) (v : G → ℚ) (h : G)
    (hv : ∀ i, 0 ≤ v i ∧ v i ≤ 1) : 0 ≤ fc c v h ∧ fc c v h ≤ 1 := by
  unfold fc
  induction c.groundings h with
  | nil => simp
  | cons b rest ih =>
    simp only [List.foldr_cons]
    exact ⟨le_trans ih.1 (le_max_right _ _),
      max_le (bodyMin_bounds v hv b).2 ih.2⟩

/-- A slot mixture is nonnegative and bounded by the sum of its weights
whenever the valuation is in `[0,1]` and the weights are nonnegative. -/
theorem slotMix_bounds {G : Type} (s : Slot G) (v : G → ℚ) (h : G)
    (hv : ∀ i, 0 ≤ v i ∧ v i ≤ 1) (hw : ∀ pc ∈ s, 0 ≤ pc.1) :
    0 ≤ slotMix s v h ∧ slotMix s v h ≤ (s.map Prod.fst).sum := by
  induction s with
  | nil => simp [slotMix]
  | cons pc rest ih =>
    have hw0 : 0 ≤ pc.1 := hw pc (by simp)
    have hrest := ih (fun q hq => hw q (List.mem_cons_of_mem pc hq))
    have hfc := fc_bounds pc.2 v h hv
    simp only [slotMix, List.map_cons, List.sum_cons] at *
    constructor
    · exact add_nonneg (mul_nonneg hw0 hfc.1) hrest.1
    · have hle : pc.1 * fc pc.2 v h ≤ pc.1 * 1 :=
        mul_le_mul_of_nonneg_left hfc.2 hw0
      nlinarith [hrest.2]

/-- Fuzzy disjunction maps `[0,1] × [0,1]` into `[0,1]`. -/
theorem fuzzyOr_bounds (a b : ℚ) (ha0 : 0 ≤ a) (ha1 : a ≤ 1) (hb0 : 0 ≤ b)
    (hb1 : b ≤ 1) : 0 ≤ fuzzyOr a b ∧ fuzzyOr a b ≤ 1 := by
  unfold fuzzyOr
  constructor <;> nlinarith

/-- The per-predicate combination lies in `[0,1]` whenever the valuation is
in `[0,1]` and every slot is a probability vector. -/
theorem combined_bounds {G : Type} (S : ChainSetup G) (v : G → ℚ) (h : G)
    (hv : ∀ i, 0 ≤ v i ∧ v i ≤ 1) (hs1 : probVector (S.slot1 h))
    (hs2 : ∀ s, S.slot2 h = some s → probVector s) :
    0 ≤ combined S v h ∧ combined S v h ≤ 1 := by
  unfold combined
  cases hcase : S.slot2 h with
  | none =>
    have hm := slotMix_bounds (S.slot1 h) v h hv hs1.1
    exact ⟨hm.1, le_trans hm.2 hs1.2⟩
  | some s =>
    have h1 := slotMix_bounds (S.slot1 h) v h hv hs1.1
    have h2p := hs2 s hcase
    have h2 := slotMix_bounds s v h hv h2p.1
    exact fuzzyOr_bounds _ _ h1.1 (le_trans h1.2 hs1.2) h2.1 (le_trans h2.2 h2p.2)

/-- Every valuation produced by the forward chainer stays in `[0,1]`. -/
theorem chain_bounds {G : Type} (S : ChainSetup G) (v0 : G → ℚ)
    (hv0 : ∀ h, 0 ≤ v0 h ∧ v0 h ≤ 1)
    (hs1 : ∀ h, probVector (S.slot1 h))
    (hs2 : ∀ h s, S.slot2 h = some s → probVector s) :
    ∀ (t : Nat) (h : G), 0 ≤ chain S v0 t h ∧ chain S v0 t h ≤ 1 := by
  intro t
  induction t with
  | zero => exact hv0
  | succ t ih =>
    intro h
    have hc := combined_bounds S (chain S v0 t) h ih (hs1 h) (hs2 h)
    have hf := fuzzyOr_bounds _ _ (ih h).1 (ih h).2 hc.1 hc.2
    simp only [chain, chainStep]
    cases hcb : S.background h with
    | false => simpa [hcb] using hf
    | true =>
      simp only [hcb, if_true]
      exact ⟨le_trans hf.1 (le_max_left _ _), max_le hf.2 (hv0 h).2⟩

/-- The running argmax value dominates its starting value and every scanned
element. -/
theorem argmaxFrom_le (xs : List ℚ) : ∀ (bi : Nat) (bv : ℚ) (i : Nat),
    bv ≤ (argmaxFrom bi bv i xs).2 ∧ ∀ x ∈ xs, x ≤ (argmaxFrom bi bv i xs).2 := by
  induction xs with
  | nil => intro bi bv i; exact ⟨le_rfl, by simp⟩
  | cons x xs ih =>
    intro bi bv i
    simp only [argmaxFrom]
    by_cases hlt : bv < x
    · simp only [if_pos hlt]
      obtain ⟨h1, h2⟩ := ih i x (i + 1)
      refine ⟨le_trans (le_of_lt hlt) h1, ?_⟩
      intro y hy
      rcases List.mem_cons.mp hy with h | h
      · exact h ▸ h1
      · exact h2 y h
    · simp only [if_neg hlt]
      obtain ⟨h1, h2⟩ := ih bi bv (i + 1)
      refine ⟨h1, ?_⟩
      intro y hy
      rcases List.mem_cons.mp hy with h | h
      · exact h ▸ le_trans (le_of_not_lt hlt) h1
      · exact h2 y h

/-- The running argmax value is the starting value or one of the scanned
elements. -/
theorem argmaxFrom_mem (xs : List ℚ) : ∀ (bi : Nat) (bv : ℚ) (i : Nat),
    (argmaxFrom bi bv i xs).2 = bv ∨ (argmaxFrom bi bv i xs).2 ∈ xs := by
  induction xs with
  | nil => intro bi bv i; exact Or.inl rfl
  | cons x xs ih =>
    intro bi bv i
    simp only [argmaxFrom]
    by_cases hlt : bv < x
    · simp only [if_pos hlt]
      rcases ih i x (i + 1) with h | h
      · exact Or.inr (List.mem_cons.mpr (Or.inl h))
      · exact Or.inr (List.mem_cons_of_mem x h)
    · simp only [if_neg hlt]
      rcases ih bi bv (i + 1) with h | h
      · exact Or.inl h
      · exact Or.inr (List.mem_cons_of_mem x h)

/-- The running argmax index stays below the number of scanned positions. -/
theorem argmaxFrom_idx_lt (xs : List ℚ) : ∀ (bi : Nat) (bv : ℚ) (i : Nat),
    bi < i → (argmaxFrom bi bv i xs).1 < i + xs.length := by
  induction xs with
  | nil => intro bi bv i h; simpa using h
  | cons x xs ih =>
    intro bi bv i h
    simp only [argmaxFrom, List.length_cons]
    by_cases hlt : bv < x
    · simp only [if_pos hlt]
      have := ih i x (i + 1) (Nat.lt_succ_self i)
      omega
    · simp only [if_neg hlt]
      have := ih bi bv (i + 1) (Nat.lt_succ_of_lt h)
      omega

/-- The mini-batch size never exceeds the number of labeled examples when
the configured fraction is at most 1. -/
theorem batchSize_le (r : ℚ) (N : Nat) (hr1 : r ≤ 1) : batchSize r N ≤ N := by
  unfold batchSize
  have h1 : r * (N : ℚ) ≤ (N : ℚ) := by
    nlinarith [Nat.cast_nonneg (α := ℚ) N]
  have h2 : Int.ceil (r * (N : ℚ)) ≤ (N : ℤ) := by
    calc Int.ceil (r * (N : ℚ)) ≤ Int.ceil ((N : ℚ)) := Int.ceil_le_ceil h1
    _ = (N : ℤ) := Int.ceil_natCast N
  omega

/-- Over the predecessor problem's background facts, the learnt clause
derives exactly the positive examples `predecessor(i+1,i)`, `i = 0..8`. -/
theorem learnt_derives_positive (g : GroundAtom) :
    clauseDerives backgroundPredecessor learntClausePredecessor g ↔ g ∈ positivePredecessor := by
  constructor
  · rintro ⟨σ, hhead, hbody⟩
    rw [bodySatisfied] at hbody
    simp only [learntClausePredecessor, List.all_cons, List.all_nil, Bool.and_true,
      Bool.and_self, decide_eq_true_eq] at hbody
    simp only [substAtom, substTerm, backgroundPredecessor, List.mem_cons, List.mem_map,
      List.mem_range] at hbody
    rcases hbody with h0 | ⟨i, hi, heq⟩
    · simp [succ_pred, zero_pred] at h0
    · have hargs : [toString i, toString (i + 1)]
          = List.map (substTerm σ) [Term.var "B", Term.var "A"] :=
        congrArg GroundAtom.args heq
      simp only [List.map_cons, List.map_nil, substTerm, List.cons.injEq, and_true] at hargs
      obtain ⟨hB, hA⟩ := hargs
      subst hhead
      simp only [substAtom, substTerm, learntClausePredecessor, positivePredecessor,
        List.mem_map, List.mem_range, List.map_cons, List.map_nil]
      exact ⟨i, hi, by rw [← hA, ← hB]⟩
  · intro hg
    simp only [positivePredecessor, List.mem_map, List.mem_range] at hg
    obtain ⟨i, hi, rfl⟩ := hg
    refine ⟨fun v => if v = "A" then toString (i + 1) else toString i, ?_, ?_⟩
    · simp [substAtom, substTerm, learntClausePredecessor, predecessor_pred]
    · rw [bodySatisfied]
      simp only [learntClausePredecessor, List.all_cons, List.all_nil, Bool.and_true,
        Bool.and_self, decide_eq_true_eq]
      simp only [substAtom, substTerm, backgroundPredecessor, List.mem_cons, List.mem_map,
        List.mem_range]
      refine Or.inr ⟨i, hi, ?_⟩
      simp [substTerm]

/-! ## Claim theorems -/

/-- Claim C5: the ground atom universe size is the sum over predicates of
`|C|^arity`; an arity-1 predicate over 11 constants contributes exactly 11
ground atoms, an arity-2 predicate exactly 121, and the predecessor target
(10 constants, arity 2) exactly 100, including the repeated-constant atom
`predecessor(0,0)`. -/
theorem universe_size_claim :
    (∀ (preds : List Predicate) (C : List String),
        (groundAtomUniverse preds C).length
          = (preds.map (fun p => C.length ^ p.arity)).sum) ∧
    (groundAtomsFor ⟨"even", 1⟩ ((List.range 11).map (fun i => toString i))).length = 11 ∧
    (groundAtomsFor ⟨"pred", 2⟩ ((List.range 11).map (fun i => toString i))).length = 121 ∧
    (groundAtomsFor predecessor_pred constantsPredecessor).length = 100 ∧
    (⟨predecessor_pred, ["0", "0"]⟩ : GroundAtom)
      ∈ groundAtomsFor predecessor_pred constantsPredecessor := by
  refine ⟨?_, ?_, ?_, ?_, ?_⟩
  · intro preds C
    simp [groundAtomUniverse, List.length_flatMap, groundAtomsFor_length, Function.comp_def]
  · simp [groundAtomsFor_length]
  · simp [groundAtomsFor_length]
  · simp [groundAtomsFor_length, constantsPredecessor, predecessor_pred]
  · decide

/-- Claim C2 counterexample: the clause actually returned by the pipeline in
the recorded predecessor run, `predecessor(A,B)<-succ(B,A), succ(B,A)`, has a
length-2 body whose two atoms are identical; likewise the even run's base
clause `even(A)<-zero(A), zero(A)`.  Since the extractor only emits clauses
from the generator's candidate list, the generator returned length-2 bodies
with duplicate atoms. -/
theorem generator_duplicate_body_counterexample :
    learntClausePredecessor.body.length = 2 ∧
    bodyAtomsDistinct learntClausePredecessor = false ∧
    learntClauseEvenBase.body.length = 2 ∧
    bodyAtomsDistinct learntClauseEvenBase = false := by decide

/-- Claim C2 (amended): clauses returned by the generator may have a
length-2 body whose two atoms are identical (a one-atom rule is represented
by repeating the atom); such a duplicated body is harmless, because a clause
whose length-2 body repeats one atom derives exactly the same ground atoms
as the clause with that single body atom. -/
theorem generator_duplicate_body_amended (hd a : Atom) (facts : List GroundAtom)
    (g : GroundAtom) :
    clauseDerives facts ⟨hd, [a, a]⟩ g ↔ clauseDerives facts ⟨hd, [a]⟩ g :=
  derives_duplicate_iff hd a facts g

/-- Claim C1: in the recorded predecessor run, the extracted clause
`predecessor(A,B)<-succ(B,A), succ(B,A)` is semantically equivalent to
`predecessor(A,B)<-succ(B,A)` (it derives exactly the same ground atoms from
any fact set, and over the problem's background facts it derives exactly the
positive examples); the final valuation report lists `predecessor(1,0)` with
probability `1.0`, and `predecessor(0,1)` is absent from the report, i.e.
its final valuation lies at or below the `0.01` display threshold (≈ 0). -/
theorem predecessor_end_to_end :
    (∀ (facts : List GroundAtom) (g : GroundAtom),
        clauseDerives facts learntClausePredecessor g
          ↔ clauseDerives facts specClausePredecessor g) ∧
    (∀ g : GroundAtom,
        clauseDerives backgroundPredecessor learntClausePredecessor g
          ↔ g ∈ positivePredecessor) ∧
    (⟨predecessor_pred, ["1", "0"]⟩, (1 : ℚ)) ∈ reportedValuationsPredecessor ∧
    (⟨predecessor_pred, ["0", "1"]⟩ : GroundAtom)
      ∉ reportedValuationsPredecessor.map Prod.fst := by
  refine ⟨?_, ?_, ?_, ?_⟩
  · intro facts g
    exact derives_duplicate_iff _ _ facts g
  · exact learnt_derives_positive
  · decide
  · decide

/-- Claim C3: for every well-formed input (initial valuation in `[0,1]`,
slot probabilities given by softmax, hence nonnegative and summing to at
most 1) every entry of every valuation `v_t`, `t = 0..T`, lies in `[0,1]`;
in particular the fuzzy-or combination `a + b - a*b` stays in `[0,1]`
whenever both operands do. -/
theorem chain_range_claim {G : Type} (S : ChainSetup G) (v0 : G → ℚ) (T : Nat)
    (hv0 : ∀ h, 0 ≤ v0 h ∧ v0 h ≤ 1)
    (hs1 : ∀ h, probVector (S.slot1 h))
    (hs2 : ∀ h s, S.slot2 h = some s → probVector s) :
    (∀ t, t ≤ T → ∀ h, 0 ≤ chain S v0 t h ∧ chain S v0 t h ≤ 1) ∧
    (∀ a b : ℚ, 0 ≤ a → a ≤ 1 → 0 ≤ b → b ≤ 1 →
      0 ≤ fuzzyOr a b ∧ fuzzyOr a b ≤ 1) :=
  ⟨fun t _ h => chain_bounds S v0 hv0 hs1 hs2 t h, fun a b => fuzzyOr_bounds a b⟩

/-- Claim C3 witness: on the tiny concrete setup, the valuation entry of
ground atom 1 after 2 of 2 steps lies in `[0,1]`. -/
theorem chain_range_witness :
    0 ≤ chain exampleSetup exampleV0 2 1 ∧ chain exampleSetup exampleV0 2 1 ≤ 1 := by
  have h := chain_range_claim exampleSetup exampleV0 2 ?hv ?h1 ?h2
  · exact h.1 2 le_rfl 1
  case hv => intro i; fin_cases i <;> norm_num [exampleV0]
  case h1 =>
    intro i
    fin_cases i <;> simp [exampleSetup, probVector]
  case h2 => intro i s hs; simp [exampleSetup] at hs

/-- Claim C4: a background ground atom's valuation entry never falls below
its initial value at any forward-chaining step: `v_t[i] ≥ v_0[i]` for all
`t`. -/
theorem background_monotone_claim {G : Type} (S : ChainSetup G) (v0 : G → ℚ)
    (h : G) (hb : S.background h = true) (t : Nat) :
    v0 h ≤ chain S v0 t h := by
  cases t with
  | zero => exact le_refl _
  | succ t =>
    simp only [chain, chainStep, hb, if_true]
    exact le_max_right _ _

/-- Claim C4 witness: on the tiny concrete setup, the background atom 0
keeps at least its initial value after 3 steps. -/
theorem background_monotone_witness :
    exampleV0 0 ≤ chain exampleSetup exampleV0 3 0 :=
  background_monotone_claim exampleSetup exampleV0 0 (by decide) 3

/-- Claim C6: running the forward chainer for `T = 0` steps returns exactly
the initial valuation, for every setup and every weight assignment. -/
theorem chain_zero_identity {G : Type} (S : ChainSetup G) (v0 : G → ℚ) :
    chain S v0 0 = v0 :=
  rfl

/-- Claim C8: for every nonempty slot, the extractor emits the argmax
clause of the softmax probabilities in every case: the emitted confidence is
a genuine maximum of the probability vector, the emitted clause is the
clause at the argmax index, and the below-threshold flag is set exactly when
the top probability is below `clause_prob_threshold` — the clause is flagged,
never omitted. -/
theorem extractor_threshold_claim (clauses : List Clause) (p : List ℚ)
    (hne : p ≠ []) (hlen : p.length = clauses.length) :
    ∃ e : ExtractedClause, extractSlot clauses p = some e ∧
      e.confidence ∈ p ∧ (∀ x ∈ p, x ≤ e.confidence) ∧
      (∃ j, argmaxP p = some (j, e.confidence) ∧ clauses[j]? = some e.clause) ∧
      (e.belowThreshold = true ↔ e.confidence < clause_prob_threshold) := by
  cases p with
  | nil => exact absurd rfl hne
  | cons x xs =>
    have hidx : (argmaxFrom 0 x 1 xs).1 < 1 + xs.length :=
      argmaxFrom_idx_lt xs 0 x 1 Nat.one_pos
    have hidx2 : (argmaxFrom 0 x 1 xs).1 < clauses.length := by
      rw [← hlen]
      simpa [Nat.add_comm] using hidx
    have hc : clauses[(argmaxFrom 0 x 1 xs).1]? = some clauses[(argmaxFrom 0 x 1 xs).1] :=
      List.getElem?_eq_getElem hidx2
    refine ⟨⟨clauses[(argmaxFrom 0 x 1 xs).1], (argmaxFrom 0 x 1 xs).2,
      decide ((argmaxFrom 0 x 1 xs).2 < clause_prob_threshold)⟩, ?_, ?_, ?_, ?_, ?_⟩
    · simp [extractSlot, argmaxP, hc]
    · rcases argmaxFrom_mem xs 0 x 1 with h | h
      · rw [h]; exact List.mem_cons_self x xs
      · exact List.mem_cons_of_mem x h
    · intro y hy
      obtain ⟨h1, h2⟩ := argmaxFrom_le xs 0 x 1
      rcases List.mem_cons.mp hy with h | h
      · exact h ▸ h1
      · exact h2 y h
    · exact ⟨(argmaxFrom 0 x 1 xs).1, by simp [argmaxP], hc⟩
    · simp

/-- Claim C8 witness: on a two-clause slot whose top probability 0.05 is
below the 0.1 threshold, the extractor still returns the argmax clause,
flagged as below the confidence threshold. -/
theorem extractor_threshold_witness :
    ∃ e : ExtractedClause,
      extractSlot [specClausePredecessor, learntClausePredecessor]
          [3 / 100, 5 / 100] = some e ∧
      e.confidence ∈ ([3 / 100, 5 / 100] : List ℚ) ∧
      (∀ x ∈ ([3 / 100, 5 / 100] : List ℚ), x ≤ e.confidence) ∧
      (∃ j, argmaxP [3 / 100, 5 / 100] = some (j, e.confidence) ∧
        [specClausePredecessor, learntClausePredecessor][j]? = some e.clause) ∧
      (e.belowThreshold = true ↔ e.confidence < clause_prob_threshold) :=
  extractor_threshold_claim [specClausePredecessor, learntClausePredecessor]
    [3 / 100, 5 / 100] (List.cons_ne_nil _ _) rfl

/-- Claim C7: the definition extractor is pure and idempotent — a call
returns the weight state unchanged, so a second call on that state produces
byte-identical output. -/
theorem extract_pure_idempotent (slots : List (List Clause × List ℚ)) :
    (extractCall slots).2 = slots ∧
    (extractCall ((extractCall slots).2)).1 = (extractCall slots).1 :=
  ⟨rfl, rfl⟩

/-- Claim C10: the valuation-printing interface retains a ground atom
exactly when its probability is strictly above the display threshold 0.01;
every entry at or below 0.01 is omitted from the report. -/
theorem print_threshold_claim (probs : List (GroundAtom × ℚ)) (g : GroundAtom)
    (q : ℚ) :
    ((g, q) ∈ printedEntries probs ↔
      (g, q) ∈ probs ∧ valuation_display_threshold < q) ∧
    ((g, q) ∈ probs → q ≤ valuation_display_threshold →
      (g, q) ∉ printedEntries probs) ∧
    print_valuations probs = (printedEntries probs).map
      (fun gp => groundAtom2str gp.1 ++ " - " ++ toString gp.2) := by
  refine ⟨?_, ?_, rfl⟩
  · simp [printedEntries, List.mem_filter]
  · intro hmem hle hcontra
    rw [printedEntries, List.mem_filter] at hcontra
    exact absurd (of_decide_eq_true hcontra.2) (not_lt.mpr hle)

/-- Claim C10 witness: in a concrete report the entry `predecessor(0,1)`
with probability 1/200 ≤ 0.01 is omitted from the printed valuations. -/
theorem print_threshold_witness :
    (⟨predecessor_pred, ["0", "1"]⟩, (1 : ℚ) / 200) ∉ printedEntries examplePrintProbs :=
  (print_threshold_claim examplePrintProbs ⟨predecessor_pred, ["0", "1"]⟩
    ((1 : ℚ) / 200)).2.1 (by simp [examplePrintProbs])
    (by norm_num [valuation_display_threshold])

/-- Claim C9: with mini-batch fraction `r ∈ (0,1]`, the batch drawn at a
training step is a subset of the labeled examples of size exactly
`⌈r·N⌉` (nonempty, at most `N`, without replacement), every such subset is
reachable by some shuffle, and the mini-batch loss and the full-set loss are
two scalar computations over the same final valuation `v_T`. -/
theorem mini_batch_claim {G : Type} (ell : ℚ → ℚ → ℚ) (S : ChainSetup G)
    (v0 : G → ℚ) (T : Nat) (examples shuffled : List (G × ℚ)) (r : ℚ)
    (hperm : shuffled.Perm examples) (hnodup : examples.Nodup)
    (hr0 : 0 < r) (hr1 : r ≤ 1) :
    (miniBatch shuffled r examples.length).length = batchSize r examples.length ∧
    (examples ≠ [] → 0 < batchSize r examples.length) ∧
    batchSize r examples.length ≤ examples.length ∧
    (miniBatch shuffled r examples.length).Nodup ∧
    miniBatch shuffled r examples.length ⊆ examples ∧
    (gradStep ell S v0 T examples shuffled r).valuation = chain S v0 T ∧
    (gradStep ell S v0 T examples shuffled r).miniLoss
      = lossOn ell (chain S v0 T) (miniBatch shuffled r examples.length) ∧
    (gradStep ell S v0 T examples shuffled r).fullLoss
      = lossOn ell (chain S v0 T) examples ∧
    (∀ sub : List (G × ℚ), sub.Nodup → sub ⊆ examples →
      sub.length = batchSize r examples.length →
      ∃ sh : List (G × ℚ), sh.Perm examples ∧ miniBatch sh r examples.length = sub) := by
  have hkle : batchSize r examples.length ≤ examples.length := batchSize_le r _ hr1
  refine ⟨?_, ?_, hkle, ?_, ?_, rfl, rfl, rfl, ?_⟩
  · rw [miniBatch, List.length_take, hperm.length_eq]
    exact min_eq_left hkle
  · intro hne
    have hN : 0 < examples.length := List.length_pos.mpr hne
    have hpos : (0 : ℚ) < r * (examples.length : ℚ) := by
      have : (0 : ℚ) < (examples.length : ℚ) := by exact_mod_cast hN
      exact mul_pos hr0 this
    have hceil : 0 < Int.ceil (r * (examples.length : ℚ)) := Int.ceil_pos.mpr hpos
    unfold batchSize
    omega
  · have hsh : shuffled.Nodup := (hperm.nodup_iff).mpr hnodup
    exact hsh.sublist (List.take_sublist _ _)
  · exact fun y hy => hperm.subset (List.take_subset _ _ hy)
  · intro sub hsubnodup hsubset hsublen
    have hsp : sub.Subperm examples := hsubnodup.subperm hsubset
    obtain ⟨l, hl1, hl2⟩ := hsp
    obtain ⟨rest, hrest⟩ := hl2.exists_perm_append
    refine ⟨sub ++ rest, ((hl1.symm.append_right rest).trans hrest.symm), ?_⟩
    rw [miniBatch, ← hsublen, List.take_left]

/-- Claim C9 witness: with fraction 1/2 over two labeled examples, the
drawn batch has exactly the prescribed size and is drawn from the labeled
set. -/
theorem mini_batch_witness :
    (miniBatch exampleExamples (1 / 2) exampleExamples.length).length
        = batchSize (1 / 2) exampleExamples.length ∧
    miniBatch exampleExamples (1 / 2) exampleExamples.length ⊆ exampleExamples := by
  have h := mini_batch_claim exampleLoss exampleSetup exampleV0 1 exampleExamples
    exampleExamples (1 / 2) (List.Perm.refl _) (by decide) (by norm_num) (by norm_num)
  exact ⟨h.1, h.2.2.2.2.1⟩

end Lernd
